import Mathlib

/-!
Verification of the Element port/flow machinery (element.cc).

The definitions below are a shallow embedding of the C++ source in
src/unnamed/part_000 (the Element base class of a modular packet
processing framework).  C strings are embedded as `List Char` with the
terminating nul modelled by reading past the end of the list
(`getc` returns the nul character there); C `int` values are embedded
as `Int`; bit vectors over 256 bits are embedded as `Finset ℕ`.
-/

set_option maxHeartbeats 1000000

/-- The nul character terminating a C string. -/
def nulc : Char := Char.ofNat 0

/-- Reading a character from a C string through a pointer: positions past
the end of the embedded list read the terminating nul. -/
def getc (s : List Char) (p : Nat) : Char := s.getD p nulc

/-- Modelled from the spec: the processing enum of the element header
(not under src/).  Only distinctness and non-negativity of the three
values are used by the embedded code; `VAGNOSTIC` is the zero value used
to initialize the `val` accumulator of `processing_vector`. -/
def VAGNOSTIC : Int := 0

/-- Push discipline value of the processing enum. -/
def VPUSH : Int := 1

/-- Pull discipline value of the processing enum. -/
def VPULL : Int := 2

/-- errno for "invalid argument". -/
def EINVAL : Int := 22

/-- errno for "device or resource busy". -/
def EBUSY : Int := 16

/-- Largest C int, produced for an open-ended range such as `"2-"`. -/
def INT_MAX : Int := 2147483647

/-- Modelled from the spec: the router lifecycle state that follows
CONFIGURED ("pre-initialize"); the numeric ordering of the router state
enum (router.hh is not under src/) mirrors the lifecycle chain of the
spec.  Only the ordering is used. -/
def ROUTER_PRECONFIGURE : Nat := 1

/-- Router state constant: pre-initialize, the point at which ports freeze. -/
def ROUTER_PREINITIALIZE : Nat := 2

/-- The sentinel complete-flow code constant `COMPLETE_FLOW` ("x/x"). -/
def COMPLETE_FLOW : List Char := ['x', '/', 'x']

/-- A port record.  Modelled from the spec: the header's Port class is not
under src/; per the spec a port stores a peer element reference and a peer
port index, with `-1` the "inactive / not yet connected" sentinel.  The
peer element reference plays no role in the claims and is omitted. -/
structure Port where
  peerPort : Int
deriving DecidableEq, Repr

/-- Modelled from the spec: a default-constructed (unconnected) port. -/
def defaultPort : Port := Port.mk (-1)

/-- Modelled from the spec: `Port::allowed()` is true iff the port is
active, i.e. its peer port index is not the `-1` inactive sentinel. -/
def Port.allowed (p : Port) : Bool := decide (0 ≤ p.peerPort)

/-- The part of the router state that `Element::set_nports` consults:
`_state` and `_have_connections`. -/
structure RouterState where
  state : Nat
  have_connections : Bool
deriving DecidableEq, Repr

/-- The element state used by the embedded member functions.  The three
specifier strings model the `port_count()`, `flow_code()` and
`processing()` virtual functions (with their default return values);
`inputs`/`outputs` model `_ports[0]`/`_ports[1]` together with
`_nports[0]`/`_nports[1]` (the counts are the list lengths);
`simple_action`, `can_live_reconfigure` and `configure` model the
corresponding virtual hooks (a null packet is `none`). -/
structure Element where
  port_count : List Char := []
  flow_code : List Char := COMPLETE_FLOW
  processing : List Char := ['a']
  inputs : List Port := []
  outputs : List Port := []
  simple_action : Nat → Option Nat := fun p => some p
  can_live_reconfigure : Bool := false
  configure : List String → Int := fun _ => 0

/-- `Element::ninputs()`. -/
def Element.ninputs (e : Element) : Nat := e.inputs.length

/-- `Element::noutputs()`. -/
def Element.noutputs (e : Element) : Nat := e.outputs.length

/-- `Element::nports(isoutput)`. -/
def Element.nportsOf (e : Element) (isoutput : Bool) : Nat :=
  if isoutput then e.outputs.length else e.inputs.length

/-- `Element::set_nports(new_ninputs, new_noutputs)`.  Negative counts
fail with `-EINVAL`; a count change while the router has connections and
has reached the pre-initialize state fails with `-EBUSY`; otherwise the
port arrays are rebuilt at the new sizes (the inline-versus-heap storage
distinction of the source is a storage choice with no observable
semantics and is not modelled; out-of-memory cannot occur here). -/
def set_nports (e : Element) (rt : RouterState) (new_ninputs new_noutputs : Int) :
    Element × RouterState × Int :=
  if new_ninputs < 0 ∨ new_noutputs < 0 then (e, rt, -EINVAL)
  else if rt.have_connections ∧ ROUTER_PREINITIALIZE ≤ rt.state then (e, rt, -EBUSY)
  else
    ({ e with inputs := List.replicate new_ninputs.toNat defaultPort,
              outputs := List.replicate new_noutputs.toNat defaultPort },
     { rt with have_connections := false }, 0)

/-- Modelled from the spec: `cp_integer(s, ends, 10, &x)` (the
configuration parser, outside the core under verification) consumes a run
of base-10 digits starting at `p` and returns the value; the caller
guarantees the first character is a digit. -/
def cpIntegerAux : List Char → Nat → Nat → Nat × Nat
  | [], p, acc => (p, acc)
  | c :: r, p, acc =>
    if c.isDigit then cpIntegerAux r (p + 1) (acc * 10 + (c.toNat - 48))
    else (p, acc)

/-- Entry point of the digit-run parse: `cp_integer` starting with an
empty accumulator; the loop walks the string suffix at position `p` and
stops at the first non-digit (the terminating nul included). -/
def cp_integer (s : List Char) (p : Nat) : Nat × Nat := cpIntegerAux (s.drop p) p 0

/-- `notify_nports_pair(s, ends, lo, hi)`: parse one range (`N`, `N-M`,
`-M`, `N-`, `-`) of a port-count specifier.  Returns the new position and
the `(lo, hi)` bounds, or `none` on a parse error. -/
def notify_nports_pair (s : List Char) (p : Nat) : Option (Nat × Int × Int) :=
  let c := getc s p
  let first : Option (Nat × Int) :=
    if c = nulc ∨ c = '-' then some (p, 0)
    else if c.isDigit then
      let r := cp_integer s p
      some (r.1, (r.2 : Int))
    else none
  match first with
  | none => none
  | some (p1, lo) =>
    if getc s p1 = '-' then
      let p2 := p1 + 1
      if (getc s p2).isDigit then
        let r := cp_integer s p2
        some (r.1, lo, (r.2 : Int))
      else some (p2, lo, INT_MAX)
    else some (p1, lo, lo)

/-- The parsing phase of `Element::notify_nports`, following the control
flow of the source exactly: parse the input range; at the end of the
string restart at the beginning (a specifier without `/` serves both
sides), otherwise step over the `/`; accept a final `"="` (output count
equal to input count, encoded as `none`), otherwise parse the output
range and require the end of the string.  `none` is the `parse_error`
label. -/
def parsePortCount (f : List Char) : Option (Int × Int × Option (Int × Int)) :=
  match notify_nports_pair f 0 with
  | none => none
  | some (p, ninlo, ninhi) =>
    let pOpt : Option Nat :=
      if getc f p = nulc then some 0
      else if getc f p = '/' then some (p + 1)
      else none
    match pOpt with
    | none => none
    | some q =>
      if getc f q = '=' ∧ getc f (q + 1) = nulc then some (ninlo, ninhi, none)
      else
        match notify_nports_pair f q with
        | none => none
        | some (p2, noutlo, nouthi) =>
          if getc f p2 = nulc then some (ninlo, ninhi, some (noutlo, nouthi))
          else none

/-- The clamping steps of `Element::notify_nports`:
`if (n < lo) n = lo; else if (n > hi) n = hi;`. -/
def clampCount (x lo hi : Int) : Int :=
  if x < lo then lo else if hi < x then hi else x

/-- The resolution phase of `Element::notify_nports`: clamp the requested
input count into the declared range; an `=` output side copies the
resolved input count, otherwise the requested output count is clamped
into its declared range. -/
def notifyNportsResolve (f : List Char) (nin nout : Int) : Option (Int × Int) :=
  match parsePortCount f with
  | none => none
  | some (ninlo, ninhi, rest) =>
    let ni := clampCount nin ninlo ninhi
    match rest with
    | none => some (ni, ni)
    | some (noutlo, nouthi) => some (ni, clampCount nout noutlo nouthi)

/-- `Element::notify_nports(ninputs, noutputs, errh)`.  An empty
specifier takes the legacy notify path, whose default hooks
(`notify_ninputs` / `notify_noutputs`) do nothing.  A parse error is
reported to the error handler (modelled by the returned message list)
and yields `-1` without touching the ports.  Otherwise the resolved
counts are installed with `set_nports` (whose return value the source
ignores) and `0` is returned. -/
def notify_nports (e : Element) (rt : RouterState) (nin nout : Int) :
    Element × RouterState × Int × List String :=
  if e.port_count = [] then (e, rt, 0, [])
  else
    match notifyNportsResolve e.port_count nin nout with
    | none => (e, rt, -1, ["bad port count"])
    | some (ni, no) =>
      let r := set_nports e rt ni no
      (r.1, r.2.1, 0, [])

/-- `Element::initialize_ports(in_v, out_v)`: each input port is rebuilt
with peer index `0` when its discipline is `VPULL` and `-1` otherwise
("allowed iff in_v[i] == VPULL"); each output port is rebuilt with peer
index `-1` when its discipline is `VPULL` and `0` otherwise
("allowed iff out_v[o] != VPULL"). -/
def initialize_ports (e : Element) (in_v out_v : List Int) : Element :=
  { e with
    inputs := (List.range e.inputs.length).map
      (fun i => Port.mk (if in_v.getD i 0 = VPULL then 0 else -1)),
    outputs := (List.range e.outputs.length).map
      (fun o => Port.mk (if out_v.getD o 0 = VPULL then -1 else 0)) }

-- FLOW CODE MACHINERY

/-- The backward scan `for (p -= 2; *p != '['; p--)` of `next_flow_code`,
looking for the opening bracket of the last port code. -/
def findOpen (s : List Char) : Nat → Nat
  | 0 => 0
  | p + 1 => if getc s (p + 1) = '[' then p + 1 else findOpen s p

/-- The forward scan `for (p++; *p != ']' && *p; p++)` shared by
`skip_flow_code` and `next_flow_code`, walking the string suffix: the
number of characters before the first `']'` or nul. -/
def findCloseAux : List Char → Nat
  | [] => 0
  | c :: r => if c = ']' ∨ c = nulc then 0 else 1 + findCloseAux r

/-- Position form of the closing-bracket scan: the first position at or
after `p` whose character is `']'` or the terminating nul. -/
def findClose (s : List Char) (p : Nat) : Nat := p + findCloseAux (s.drop p)

/-- Does a character match `(*p >= 'A' && *p <= 'Z') || (*p >= 'a' && *p <= 'z')`. -/
def isFlowLetter (c : Char) : Bool :=
  decide (('A' ≤ c ∧ c ≤ 'Z') ∨ ('a' ≤ c ∧ c ≤ 'z'))

/-- The bracket-group collection loop of `next_flow_code`: letters set
their own bit, `#` sets bit `port + 128`, anything else is reported as an
invalid character and contributes nothing. -/
def scanBracketAux (port : Nat) : List Char → Finset ℕ → Finset ℕ
  | [], acc => acc
  | c :: r, acc =>
    if c = ']' ∨ c = nulc then acc
    else scanBracketAux port r
      (if isFlowLetter c then insert c.toNat acc
       else if c = '#' then insert (port + 128) acc
       else acc)

/-- Position form of the bracket-group collection loop, walking the
string suffix at position `p`. -/
def scanBracket (s : List Char) (port : Nat) (p : Nat) (acc : Finset ℕ) : Finset ℕ :=
  scanBracketAux port (s.drop p) acc

/-- `skip_flow_code(p)`: advance over one port code (a whole bracket
group, or a single character), staying put at a `/` or at the end. -/
def skip_flow_code (s : List Char) (p : Nat) : Nat :=
  if getc s p ≠ '/' ∧ getc s p ≠ nulc then
    if getc s p = '[' then
      let e := findClose s (p + 1)
      if getc s e = nulc then e else e + 1
    else p + 1
  else p

/-- The backup phase of `next_flow_code`: if the pointer rests on `/` or
the nul, back up to the start of the last code (through a closing bracket
if needed). -/
def nfcBackup (s : List Char) (p : Nat) : Nat :=
  if getc s p = '/' ∨ getc s p = nulc then
    (if getc s (p - 1) = ']' then findOpen s (p - 2) else p - 1)
  else p

/-- The reading phase of `next_flow_code`, at a pointer already resting
on the start of a code: a bracket group (with optional `^` complement,
taken as the complement in the 256-bit universe), a single letter, or `#`
(bit `port + 128`); an invalid character is reported and leaves the set
empty. -/
def nfcParse (s : List Char) (p : Nat) (port : Nat) : Nat × Finset ℕ :=
  let c := getc s p
  if c = '[' then
    let negated := getc s (p + 1) = '^'
    let q := if negated then p + 1 else p
    let bits := scanBracket s port (q + 1) ∅
    let bits := if negated then Finset.range 256 \ bits else bits
    let e := findClose s (q + 1)
    (if getc s e = nulc then e else e + 1, bits)
  else if isFlowLetter c then (p + 1, {c.toNat})
  else if c = '#' then (p + 1, {port + 128})
  else (p + 1, (∅ : Finset ℕ))

/-- `next_flow_code(p, port, code, errh, e)`: back up if resting on `/`
or the nul, then read one code. -/
def next_flow_code (s : List Char) (p : Nat) (port : Nat) : Nat × Finset ℕ :=
  nfcParse s (nfcBackup s p) port

/-- Iterated `skip_flow_code`, used by `port_flow` to reach the code of
input position `port`. -/
def skipN (s : List Char) (p : Nat) : Nat → Nat
  | 0 => p
  | n + 1 => skip_flow_code s (skipN s p n)

/-- The output loop of `port_flow`: starting at pointer `p` with
complementary port number `k`, read `n` successive codes with
`next_flow_code` and record for each whether it has a non-empty
intersection with `inCode`. -/
def flowTravels (s : List Char) (inCode : Finset ℕ) : Nat → Nat → Nat → List Bool
  | _, _, 0 => []
  | p, k, n + 1 =>
    let r := next_flow_code s p k
    decide ((inCode ∩ r.2).Nonempty) :: flowTravels s inCode r.1 (k + 1) n

/-- `Element::port_flow(isoutput, port, travels)`.  An out-of-range port
yields the all-false vector; the `COMPLETE_FLOW` sentinel yields the
all-true vector; a missing or misplaced `/` after locating the output
section yields all-false (error reported); otherwise the code of `port`
(on the queried side) is read after skipping `port` codes, and each
complementary code is matched against it by bit intersection. -/
def port_flow (e : Element) (isoutput : Bool) (port : Int) : List Bool :=
  let f := e.flow_code
  let nother := e.nportsOf (!isoutput)
  if port < 0 ∨ (e.nportsOf isoutput : Int) ≤ port then List.replicate nother false
  else if f = COMPLETE_FLOW then List.replicate nother true
  else
    let pOut := match f.findIdx? (· = '/') with
                | some i => i + 1
                | none => 0
    if getc f pOut = nulc ∨ getc f pOut = '/' then List.replicate nother false
    else
      let pin := if isoutput then pOut else 0
      let pout := if isoutput then 0 else pOut
      let pn := port.toNat
      let start := skipN f pin pn
      let inCode := (next_flow_code f start pn).2
      flowTravels f inCode pout 0 nother

-- PROCESSING MACHINERY

/-- `Element::next_processing_code(p, errh)`: one character of a
processing specifier.  `h`/`H` is push, `l`/`L` is pull, `a`/`A` is
agnostic; `/` or the end of the string yields `-2` without advancing; any
other character is an error (`-1`) and is stepped over. -/
def next_processing_code : List Char → List Char × Int
  | [] => ([], -2)
  | c :: r =>
    if c = '/' then (c :: r, -2)
    else if c = 'h' ∨ c = 'H' then (r, VPUSH)
    else if c = 'l' ∨ c = 'L' then (r, VPULL)
    else if c = 'a' ∨ c = 'A' then (r, VAGNOSTIC)
    else (r, -1)

/-- One section loop of `Element::processing_vector`: for each of `n`
ports, read the next code while the previous read succeeded (`last_val >=
0`), keep the previous value once the section is exhausted (`-2`) or an
error occurred (`-1`), and record the current value.  Returns the
recorded values, the final pointer and the final current value. -/
def procLoop (p : List Char) (lastVal val : Int) : Nat → List Int × List Char × Int
  | 0 => ([], p, val)
  | n + 1 =>
    let s := if 0 ≤ lastVal then next_processing_code p else (p, lastVal)
    let v := if 0 ≤ s.2 then s.2 else val
    let r := procLoop s.1 s.2 v n
    (v :: r.1, r.2)

/-- `Element::processing_vector(in_v, out_v, errh)`: run the section loop
over the inputs, skip forward to just past the `/` (restarting at the
beginning of the specifier if there is none), and run the section loop
over the outputs, with `last_val` reset but the current value carried
over. -/
def processing_vector (e : Element) : List Int × List Int :=
  let p_in := e.processing
  let rin := procLoop p_in 0 0 e.inputs.length
  let p2raw := rin.2.1.dropWhile (fun c => ¬ (c = '/'))
  let p2 := match p2raw with
            | [] => p_in
            | _ :: r => r
  let rout := procLoop p2 0 rin.2.2 e.outputs.length
  (rin.1, rout.1)

-- DEFAULT PUSH / PULL AND THE CONFIG HANDLER

/-- The default `Element::push(port, p)`: run `simple_action` and, when
the result is non-null, push it on output 0.  The observable effect is
the list of port-level pushes performed, as `(output port, packet)`
pairs. -/
def Element.push (e : Element) (port : Nat) (p : Nat) : List (Nat × Nat) :=
  let _ := port
  match e.simple_action p with
  | some q => [(0, q)]
  | none => []

/-- The default `Element::pull(port)`: pull from input 0 (the packet the
upstream peer returns is the `upstream` argument) and, when non-null,
filter it through `simple_action`. -/
def Element.pull (e : Element) (upstream : Option Nat) (port : Nat) : Option Nat :=
  let _ := port
  match upstream with
  | none => none
  | some p => e.simple_action p

/-- `Element::live_reconfigure(conf, errh)`: delegate to `configure` when
`can_live_reconfigure()` is true, otherwise report an error (the error
handler's `error` returns a negative errno, `-EINVAL`). -/
def Element.live_reconfigure (e : Element) (conf : List String) : Int :=
  if e.can_live_reconfigure then e.configure conf else -EINVAL

/-- `write_config_handler(str, e, thunk, errh)`: split the written string
into arguments (`cp_argvec`, a parser outside the core, passed in as a
function), call `live_reconfigure`, and commit the new configuration
string into the router's store only on a non-negative result.  Returns
the handler result and the stored configuration string afterwards. -/
def write_config_handler (cpArgvec : String → List String) (e : Element)
    (stored str : String) : Int × String :=
  let conf := cpArgvec str
  let r := e.live_reconfigure conf
  (r, if 0 ≤ r then str else stored)

/-- `read_config_handler(e, thunk)`: return the element's current
configuration string (for the default `configuration()`, the router's
stored string verbatim), with a newline appended when non-empty and not
already newline-terminated. -/
def read_config_handler (stored : String) : String :=
  if stored.length ≠ 0 ∧ stored.back ≠ '\n' then stored ++ "\n" else stored

-- DECLARATIVE CHARACTERIZATION OF PROCESSING SECTIONS

/-- The discipline value denoted by one valid processing code character. -/
def pcode (c : Char) : Int :=
  if c = 'h' ∨ c = 'H' then VPUSH
  else if c = 'l' ∨ c = 'L' then VPULL
  else VAGNOSTIC

/-- A character that is a legal processing code. -/
def validProcChar (c : Char) : Prop :=
  c = 'h' ∨ c = 'H' ∨ c = 'l' ∨ c = 'L' ∨ c = 'a' ∨ c = 'A'

instance : DecidablePred validProcChar := fun c => by
  unfold validProcChar; infer_instance

theorem pcode_nonneg (c : Char) : 0 ≤ pcode c := by
  unfold pcode; split_ifs <;> decide

theorem next_processing_code_valid (c : Char) (r : List Char) (h : validProcChar c) :
    next_processing_code (c :: r) = (r, pcode c) := by
  rcases h with h | h | h | h | h | h <;> subst h <;> rfl

theorem procLoop_neg (p : List Char) (lv v : Int) (h : lv < 0) (n : Nat) :
    procLoop p lv v n = (List.replicate n v, p, v) := by
  induction n with
  | zero => rfl
  | succ n ih =>
    have h0 : ¬ (0 ≤ lv) := by omega
    simp [procLoop, h0, ih, List.replicate_succ]

theorem procLoop_term (t : List Char) (lv v : Int) (n : Nat) (hlv : 0 ≤ lv)
    (ht : t = [] ∨ ∃ r, t = '/' :: r) :
    procLoop t lv v n = (List.replicate n v, t, v) := by
  cases n with
  | zero => rfl
  | succ n =>
    have hnext : next_processing_code t = (t, -2) := by
      rcases ht with rfl | ⟨r, rfl⟩
      · rfl
      · simp [next_processing_code]
    have h2 : ¬ ((0:Int) ≤ -2) := by decide
    simp [procLoop, hlv, hnext, h2,
      procLoop_neg t (-2) v (by decide) n, List.replicate_succ]

theorem procLoop_codes (n : Nat) : ∀ (cs t : List Char) (lv v0 : Int),
    cs ≠ [] → (∀ c ∈ cs, validProcChar c) → 0 ≤ lv →
    (t = [] ∨ ∃ r, t = '/' :: r) →
    procLoop (cs ++ t) lv v0 n =
      ((List.range n).map (fun i => pcode (cs.getD (min i (cs.length - 1)) 'a')),
       cs.drop n ++ t,
       if n = 0 then v0
       else pcode (cs.getD (min (n - 1) (cs.length - 1)) 'a')) := by
  induction n with
  | zero =>
    intro cs t lv v0 _ _ _ _
    simp [procLoop]
  | succ n ih =>
    intro cs t lv v0 hne hval hlv ht
    obtain ⟨c, cs', rfl⟩ : ∃ c cs', cs = c :: cs' := by
      cases cs with
      | nil => exact absurd rfl hne
      | cons a l => exact ⟨a, l, rfl⟩
    have hvc : validProcChar c := hval c (List.mem_cons_self c cs')
    have hpc0 : 0 ≤ pcode c := pcode_nonneg c
    have hstep : procLoop ((c :: cs') ++ t) lv v0 (n + 1) =
        (pcode c :: (procLoop (cs' ++ t) (pcode c) (pcode c) n).1,
         (procLoop (cs' ++ t) (pcode c) (pcode c) n).2) := by
      simp [procLoop, hlv, next_processing_code_valid c (cs' ++ t) hvc, hpc0]
    rw [hstep]
    by_cases hcs' : cs' = []
    · subst hcs'
      simp only [List.nil_append]
      rw [procLoop_term t (pcode c) (pcode c) n hpc0 ht]
      simp [Prod.ext_iff, List.map_const', List.replicate_succ, Nat.min_zero]
    · rw [ih cs' t (pcode c) (pcode c) hcs'
        (fun x hx => hval x (List.mem_cons_of_mem c hx)) hpc0 ht]
      have hlen : cs'.length - 1 + 1 = cs'.length :=
        Nat.succ_pred_eq_of_pos (List.length_pos.mpr hcs')
      simp only [Prod.mk.injEq]
      refine ⟨?_, ?_, ?_⟩
      · rw [List.range_succ_eq_map, List.map_cons, List.map_map]
        simp only [List.length_cons, Nat.add_sub_cancel, Nat.min_zero,
          List.getD_cons_zero]
        congr 1
        · simp [Nat.min_zero]
        · apply List.map_congr_left
          intro i _
          have : min (i + 1) cs'.length = min i (cs'.length - 1) + 1 := by
            conv_lhs => rw [← hlen]
            exact Nat.succ_min_succ i (cs'.length - 1)
          simp [Function.comp, this, List.getD_cons_succ]
      · simp
      · cases n with
        | zero => simp [Nat.min_zero]
        | succ m =>
          have : min (m + 1) cs'.length = min m (cs'.length - 1) + 1 := by
            conv_lhs => rw [← hlen]
            exact Nat.succ_min_succ m (cs'.length - 1)
          simp [this, List.getD_cons_succ]

theorem validProcChar_ne_slash (c : Char) (h : validProcChar c) : c ≠ '/' := by
  rcases h with h | h | h | h | h | h <;> subst h <;> decide

theorem dropWhile_to_slash (l t : List Char) (h : ∀ c ∈ l, c ≠ '/') :
    List.dropWhile (fun c => ¬ (c = '/')) (l ++ '/' :: t) = '/' :: t := by
  induction l with
  | nil => simp [List.dropWhile]
  | cons a l ih =>
    have ha : a ≠ '/' := h a (List.mem_cons_self a l)
    simp only [List.cons_append, List.dropWhile_cons]
    rw [if_pos (by simpa using ha)]
    exact ih (fun c hc => h c (List.mem_cons_of_mem a hc))

/-- A concrete element declaring processing specifier "a/ah" with 4
inputs and 4 outputs (scenario S4 of the spec). -/
def procElt44 : Element :=
  { processing := "a/ah".data,
    inputs := List.replicate 4 defaultPort,
    outputs := List.replicate 4 defaultPort }

/-- Claim C6: for processing specifier "a/ah" with 4 inputs and 4 outputs,
`processing_vector` resolves the inputs to four agnostic values and the
outputs to agnostic followed by three pushes; in general over any element
whose specifier consists of two sections of valid codes, each port gets
the code at its own position with the last code of the section replicated
to cover the remaining ports, and codes beyond the port count are
ignored. -/
theorem processing_replication :
    (processing_vector procElt44 =
      ([VAGNOSTIC, VAGNOSTIC, VAGNOSTIC, VAGNOSTIC],
       [VAGNOSTIC, VPUSH, VPUSH, VPUSH])) ∧
    (∀ (e : Element) (cs1 cs2 : List Char),
       cs1 ≠ [] → cs2 ≠ [] →
       (∀ c ∈ cs1, validProcChar c) → (∀ c ∈ cs2, validProcChar c) →
       e.processing = cs1 ++ '/' :: cs2 →
       processing_vector e =
         ((List.range e.inputs.length).map
            (fun i => pcode (cs1.getD (min i (cs1.length - 1)) 'a')),
          (List.range e.outputs.length).map
            (fun i => pcode (cs2.getD (min i (cs2.length - 1)) 'a')))) := by
  constructor
  · decide
  · intro e cs1 cs2 hne1 hne2 hv1 hv2 hp
    have h1 := procLoop_codes e.inputs.length cs1 ('/' :: cs2) 0 0 hne1 hv1
      (le_refl 0) (Or.inr ⟨cs2, rfl⟩)
    have hdw : List.dropWhile (fun c => ¬ (c = '/'))
        (List.drop e.inputs.length cs1 ++ '/' :: cs2) = '/' :: cs2 :=
      dropWhile_to_slash _ _
        (fun c hc => validProcChar_ne_slash c (hv1 c (List.drop_subset _ _ hc)))
    have h2 := procLoop_codes e.outputs.length cs2 [] 0
      (if e.inputs.length = 0 then 0
       else pcode (cs1.getD (min (e.inputs.length - 1) (cs1.length - 1)) 'a'))
      hne2 hv2 (le_refl 0) (Or.inl rfl)
    rw [List.append_nil] at h2
    simp only [processing_vector, hp, h1, hdw, h2, List.append_nil]

/-- A concrete element declaring processing "h/la" with 3 inputs and 3
outputs, used to exercise the replication theorem. -/
def procElt3 : Element :=
  { processing := "h/la".data,
    inputs := List.replicate 3 defaultPort,
    outputs := List.replicate 3 defaultPort }

theorem processing_replication_witness :
    (['h'] : List Char) ≠ [] ∧ (['l', 'a'] : List Char) ≠ [] ∧
    procElt3.processing = ['h'] ++ '/' :: ['l', 'a'] ∧
    processing_vector procElt3 =
      ((List.range procElt3.inputs.length).map
         (fun i => pcode ((['h'] : List Char).getD (min i (([ 'h'] : List Char).length - 1)) 'a')),
       (List.range procElt3.outputs.length).map
         (fun i => pcode ((['l', 'a'] : List Char).getD (min i ((['l', 'a'] : List Char).length - 1)) 'a'))) :=
  ⟨by decide, by decide, by decide,
   processing_replication.2 procElt3 ['h'] ['l', 'a'] (by decide) (by decide)
     (by decide) (by decide) (by decide)⟩

/-- The router state before configuration: ports not frozen. -/
def rtPre : RouterState := { state := ROUTER_PRECONFIGURE, have_connections := false }

/-- The router state at pre-initialize with connections installed: ports
frozen. -/
def rtFrozen : RouterState := { state := ROUTER_PREINITIALIZE, have_connections := true }

/-- A concrete element declaring port count "1-2/=" (scenario S1). -/
def pcElt : Element := { port_count := "1-2/=".data }

/-- A concrete element with the malformed port count specifier "=" (the
`=` form is only legal on the output side). -/
def badPcElt : Element := { port_count := "=".data }

/-- An element with every field at its default. -/
def emptyElt : Element := {}

/-- Claim C1: for an element whose port_count() specifier is "1-2/=",
notify_nports with requested counts (3 inputs, 1 output) clamps the input
count into the declared range, yielding 2 inputs, and the '=' output side
copies the resolved input count, yielding 2 outputs; in general each
requested count is clamped into its declared [lo, hi] range (and the
clamped value lies in that range when it is non-empty), and '=' copies
the resolved input count. -/
theorem portcount_resolution :
    (notifyNportsResolve ("1-2/=".data) 3 1 = some (2, 2)) ∧
    (∀ (e : Element) (rt : RouterState), e.port_count = "1-2/=".data →
       rt.state < ROUTER_PREINITIALIZE →
       (notify_nports e rt 3 1).1.inputs.length = 2 ∧
       (notify_nports e rt 3 1).1.outputs.length = 2 ∧
       (notify_nports e rt 3 1).2.2.1 = 0) ∧
    (∀ (f : List Char) (nin nout ninlo ninhi noutlo nouthi : Int),
       parsePortCount f = some (ninlo, ninhi, some (noutlo, nouthi)) →
       notifyNportsResolve f nin nout =
         some (clampCount nin ninlo ninhi, clampCount nout noutlo nouthi)) ∧
    (∀ (f : List Char) (nin nout ninlo ninhi : Int),
       parsePortCount f = some (ninlo, ninhi, none) →
       notifyNportsResolve f nin nout =
         some (clampCount nin ninlo ninhi, clampCount nin ninlo ninhi)) ∧
    (∀ x lo hi : Int, lo ≤ hi →
       lo ≤ clampCount x lo hi ∧ clampCount x lo hi ≤ hi) := by
  refine ⟨by decide, ?_, ?_, ?_, ?_⟩
  · intro e rt hpc hst
    have hne : e.port_count ≠ [] := by rw [hpc]; decide
    have hres : notifyNportsResolve e.port_count 3 1 = some (2, 2) := by
      rw [hpc]; decide
    have hbusy : ¬ (rt.have_connections = true ∧ ROUTER_PREINITIALIZE ≤ rt.state) := by
      rintro ⟨-, hge⟩
      omega
    have hset : set_nports e rt 2 2 =
        ({ e with inputs := List.replicate 2 defaultPort,
                  outputs := List.replicate 2 defaultPort },
         { rt with have_connections := false }, 0) := by
      unfold set_nports
      rw [if_neg (by omega), if_neg hbusy]
      rfl
    simp only [notify_nports, if_neg hne, hres, hset]
    simp
  · intro f nin nout ninlo ninhi noutlo nouthi h
    simp [notifyNportsResolve, h]
  · intro f nin nout ninlo ninhi h
    simp [notifyNportsResolve, h]
  · intro x lo hi h
    unfold clampCount
    constructor <;> split_ifs <;> omega

theorem portcount_resolution_witness :
    pcElt.port_count = "1-2/=".data ∧
    rtPre.state < ROUTER_PREINITIALIZE ∧
    ((notify_nports pcElt rtPre 3 1).1.inputs.length = 2 ∧
     (notify_nports pcElt rtPre 3 1).1.outputs.length = 2 ∧
     (notify_nports pcElt rtPre 3 1).2.2.1 = 0) ∧
    notifyNportsResolve ("0-3/2-4".data) 5 1 =
      some (clampCount 5 0 3, clampCount 1 2 4) ∧
    ((1 : Int) ≤ clampCount 7 1 4 ∧ clampCount 7 1 4 ≤ 4) :=
  ⟨rfl, by decide,
   portcount_resolution.2.1 pcElt rtPre rfl (by decide),
   portcount_resolution.2.2.1 ("0-3/2-4".data) 5 1 0 3 2 4 (by decide),
   portcount_resolution.2.2.2.2 7 1 4 (by decide)⟩

/-- Claim C10: for an element whose port_count() specifier is non-empty
and fails to parse, notify_nports reports "bad port count" to the error
handler and returns -1 without calling set_nports, leaving the element
(its port arrays and counts) and the router state exactly as they were. -/
theorem notify_nports_parse_error_atomic (e : Element) (rt : RouterState)
    (nin nout : Int) (hne : e.port_count ≠ [])
    (hbad : parsePortCount e.port_count = none) :
    notify_nports e rt nin nout = (e, rt, -1, ["bad port count"]) := by
  have hres : notifyNportsResolve e.port_count nin nout = none := by
    simp [notifyNportsResolve, hbad]
  simp [notify_nports, hne, hres]

theorem notify_nports_parse_error_atomic_witness :
    badPcElt.port_count ≠ [] ∧
    parsePortCount badPcElt.port_count = none ∧
    notify_nports badPcElt rtPre 3 1 = (badPcElt, rtPre, -1, ["bad port count"]) :=
  ⟨by decide, by decide,
   notify_nports_parse_error_atomic badPcElt rtPre 3 1 (by decide) (by decide)⟩

/-- Claim C4: set_nports with a negative requested count fails with
-EINVAL leaving the element (both port arrays and both counts) and router
state unchanged; set_nports with valid counts once the router has
connections installed and has reached the pre-initialize state fails with
-EBUSY, likewise leaving everything unchanged. -/
theorem frozen_ports_rule (e : Element) (rt : RouterState) (nin nout : Int) :
    ((nin < 0 ∨ nout < 0) → set_nports e rt nin nout = (e, rt, -EINVAL)) ∧
    (0 ≤ nin → 0 ≤ nout → rt.have_connections = true →
      ROUTER_PREINITIALIZE ≤ rt.state →
      set_nports e rt nin nout = (e, rt, -EBUSY)) := by
  constructor
  · intro h
    unfold set_nports
    rw [if_pos h]
  · intro h1 h2 h3 h4
    unfold set_nports
    rw [if_neg (by omega), if_pos ⟨h3, h4⟩]

theorem frozen_ports_rule_witness :
    set_nports emptyElt rtFrozen (-1) 0 = (emptyElt, rtFrozen, -EINVAL) ∧
    set_nports emptyElt rtFrozen 1 1 = (emptyElt, rtFrozen, -EBUSY) :=
  ⟨(frozen_ports_rule emptyElt rtFrozen (-1) 0).1 (Or.inl (by decide)),
   (frozen_ports_rule emptyElt rtFrozen 1 1).2 (by decide) (by decide) rfl
     (le_refl _)⟩

/-- An element with no inputs and one output, used to refute the claimed
"output active iff push" direction at an agnostic output. -/
def agnOutElt : Element := { outputs := [defaultPort] }

/-- Claim C3 counterexample: after initialize_ports with out_v = [agnostic],
output 0 is active (allowed) although its discipline is not push, refuting
"each output port is active iff its discipline resolved to push" at this
concrete input. -/
theorem port_activeness_counterexample :
    ¬ ((((initialize_ports agnOutElt [] [VAGNOSTIC]).outputs.getD 0
          defaultPort).allowed = true) ↔ VAGNOSTIC = VPUSH) := by decide

/-- Claim C3 (amended): after initialize_ports, an input port is active
(allowed) iff its discipline value is pull, and an output port is active
iff its discipline value is NOT pull — so push and agnostic outputs are
both active. -/
theorem port_activeness_after_initialize_ports (e : Element)
    (in_v out_v : List Int) (i o : Nat)
    (hi : i < e.inputs.length) (ho : o < e.outputs.length) :
    (((initialize_ports e in_v out_v).inputs.getD i defaultPort).allowed = true
       ↔ in_v.getD i 0 = VPULL) ∧
    (((initialize_ports e in_v out_v).outputs.getD o defaultPort).allowed = true
       ↔ ¬ (out_v.getD o 0 = VPULL)) := by
  simp only [initialize_ports]
  constructor
  · have hlen : i < ((List.range e.inputs.length).map
        (fun j => Port.mk (if in_v.getD j 0 = VPULL then 0 else -1))).length := by
      simpa using hi
    rw [List.getD_eq_getElem _ _ hlen]
    simp only [List.getElem_map, List.getElem_range]
    by_cases h : in_v.getD i 0 = VPULL
    · rw [if_pos h]
      exact iff_of_true (by decide) h
    · rw [if_neg h]
      exact iff_of_false (by decide) h
  · have hlen : o < ((List.range e.outputs.length).map
        (fun j => Port.mk (if out_v.getD j 0 = VPULL then -1 else 0))).length := by
      simpa using ho
    rw [List.getD_eq_getElem _ _ hlen]
    simp only [List.getElem_map, List.getElem_range]
    by_cases h : out_v.getD o 0 = VPULL
    · rw [if_pos h]
      exact iff_of_false (by decide) (not_not_intro h)
    · rw [if_neg h]
      exact iff_of_true (by decide) h

/-- An element with one input and one output. -/
def onePortElt : Element := { inputs := [defaultPort], outputs := [defaultPort] }

theorem port_activeness_after_initialize_ports_witness :
    0 < onePortElt.inputs.length ∧ 0 < onePortElt.outputs.length ∧
    ((((initialize_ports onePortElt [VPULL] [VAGNOSTIC]).inputs.getD 0
        defaultPort).allowed = true ↔ ([VPULL] : List Int).getD 0 0 = VPULL) ∧
     (((initialize_ports onePortElt [VPULL] [VAGNOSTIC]).outputs.getD 0
        defaultPort).allowed = true ↔ ¬ (([VAGNOSTIC] : List Int).getD 0 0 = VPULL))) :=
  ⟨by decide, by decide,
   port_activeness_after_initialize_ports onePortElt [VPULL] [VAGNOSTIC] 0 0
     (by decide) (by decide)⟩

/-- Claim C7: the default push computes simple_action of the packet and
performs a port-level push of the result on output 0 exactly when it is
non-null; the default pull pulls from input 0 and returns simple_action
of the pulled packet exactly when both the upstream pull and
simple_action are non-null, and null otherwise. -/
theorem default_push_pull_bridge (e : Element) (port p : Nat) (up : Option Nat) :
    (∀ q, e.simple_action p = some q → e.push port p = [(0, q)]) ∧
    (e.simple_action p = none → e.push port p = []) ∧
    (∀ q, e.pull up port = some q ↔ ∃ x, up = some x ∧ e.simple_action x = some q) ∧
    (e.pull up port = none ↔ up = none ∨ ∃ x, up = some x ∧ e.simple_action x = none) := by
  refine ⟨?_, ?_, ?_, ?_⟩
  · intro q h
    simp [Element.push, h]
  · intro h
    simp [Element.push, h]
  · intro q
    cases up with
    | none => simp [Element.pull]
    | some x => simp [Element.pull]
  · cases up with
    | none => simp [Element.pull]
    | some x => simp [Element.pull]

/-- A filtering element: simple_action drops packet 0 and rewrites any
other packet n to n + 1. -/
def saElt : Element :=
  { simple_action := fun n => if n = 0 then none else some (n + 1) }

theorem default_push_pull_bridge_witness :
    saElt.push 0 1 = [(0, 2)] ∧ saElt.push 0 0 = [] ∧
    saElt.pull (some 1) 0 = some 2 ∧ saElt.pull none 0 = none :=
  ⟨(default_push_pull_bridge saElt 0 1 (some 1)).1 2 rfl,
   (default_push_pull_bridge saElt 0 0 (some 0)).2.1 rfl,
   ((default_push_pull_bridge saElt 0 1 (some 1)).2.2.1 2).mpr ⟨1, rfl, rfl⟩,
   ((default_push_pull_bridge saElt 0 0 none).2.2.2).mpr (Or.inl rfl)⟩

/-- Claim C9: for an element that permits live reconfiguration, a write
of the "config" handler invokes live_reconfigure (hence configure) on the
parsed argument vector; a negative result leaves the stored configuration
string unchanged (so a subsequent read of "config" returns the original)
and propagates the error, while a non-negative result commits the newly
written string. -/
theorem live_reconfigure_rollback (cpArgvec : String → List String)
    (e : Element) (stored str : String) (hc : e.can_live_reconfigure = true) :
    ((write_config_handler cpArgvec e stored str).1 = e.configure (cpArgvec str)) ∧
    (e.configure (cpArgvec str) < 0 →
       (write_config_handler cpArgvec e stored str).2 = stored ∧
       (write_config_handler cpArgvec e stored str).1 < 0 ∧
       read_config_handler (write_config_handler cpArgvec e stored str).2 =
         read_config_handler stored) ∧
    (0 ≤ e.configure (cpArgvec str) →
       (write_config_handler cpArgvec e stored str).2 = str) := by
  have hlr : e.live_reconfigure (cpArgvec str) = e.configure (cpArgvec str) := by
    simp [Element.live_reconfigure, hc]
  refine ⟨?_, ?_, ?_⟩
  · simp [write_config_handler, hlr]
  · intro h
    have hn : ¬ (0 ≤ e.configure (cpArgvec str)) := by omega
    refine ⟨?_, ?_, ?_⟩ <;> simp [write_config_handler, hlr, hn, h]
  · intro h
    have hp : 0 ≤ e.live_reconfigure (cpArgvec str) := by rw [hlr]; exact h
    simp [write_config_handler, hp]

/-- A live-reconfigurable element whose configure rejects exactly the
argument vector ["BAD"]. -/
def lrElt : Element :=
  { can_live_reconfigure := true,
    configure := fun conf => if conf = ["BAD"] then -1 else 0 }

theorem live_reconfigure_rollback_witness :
    lrElt.can_live_reconfigure = true ∧
    lrElt.configure ["BAD"] < 0 ∧
    (write_config_handler (fun s => [s]) lrElt "GOOD" "BAD").2 = "GOOD" ∧
    (0 ≤ lrElt.configure ["OK"]) ∧
    (write_config_handler (fun s => [s]) lrElt "GOOD" "OK").2 = "OK" :=
  ⟨rfl, by decide,
   ((live_reconfigure_rollback (fun s => [s]) lrElt "GOOD" "BAD" rfl).2.1
     (by decide)).1,
   by decide,
   (live_reconfigure_rollback (fun s => [s]) lrElt "GOOD" "OK" rfl).2.2
     (by decide)⟩

-- DECLARATIVE CHARACTERIZATION OF FLOW-CODE SECTIONS

/-- One atom of a flow code: a letter or the `#` self-port marker. -/
inductive FItem
  | letter (c : Char)
  | hash
deriving DecidableEq

/-- The character an atom is written as. -/
def itemChar : FItem → Char
  | .letter c => c
  | .hash => '#'

/-- A legal atom: its letter really is a letter. -/
def itemOK : FItem → Prop
  | .letter c => isFlowLetter c = true
  | .hash => True

instance : DecidablePred itemOK := fun it => by
  cases it <;> unfold itemOK <;> infer_instance

/-- The bit an atom sets in the 256-bit encoding, given the port number. -/
def itemBit (port : Nat) : FItem → ℕ
  | .letter c => c.toNat
  | .hash => port + 128

/-- One port code: a bare atom, or a bracket group with an optional `^`
complement marker. -/
inductive FCode
  | single (it : FItem)
  | bracket (neg : Bool) (items : List FItem)
deriving DecidableEq

/-- The characters a port code is written as. -/
def renderCode : FCode → List Char
  | .single it => [itemChar it]
  | .bracket neg items =>
    '[' :: ((if neg then ['^'] else []) ++ items.map itemChar ++ [']'])

/-- A legal port code: all atoms legal. -/
def codeOK : FCode → Prop
  | .single it => itemOK it
  | .bracket _ items => ∀ it ∈ items, itemOK it

instance : DecidablePred codeOK := fun c => by
  cases c <;> unfold codeOK <;> infer_instance

/-- The 256-bit set a port code denotes at a given port number, exactly
as `next_flow_code` computes it (insertion order of the collection loop
included). -/
def codeBits (port : Nat) : FCode → Finset ℕ
  | .single it => {itemBit port it}
  | .bracket neg items =>
    let s := items.foldl (fun a it => insert (itemBit port it) a) ∅
    if neg then Finset.range 256 \ s else s

/-- The characters of a whole section of port codes. -/
def renderSec (codes : List FCode) : List Char := (codes.map renderCode).flatten

/-- The code governing complementary position `k` of a section: position
`k` itself, with the last code replicated for positions beyond the end. -/
def codeIdx (codes : List FCode) (k : Nat) : FCode :=
  codes.getD (min k (codes.length - 1)) (FCode.single FItem.hash)

/-- A section of a flow-code string: `f` consists of `pre`, then the
rendered codes, then `post`, where `post` is empty (end of string) or
starts with the `/` separator; the section is non-empty and its codes are
legal. -/
def SecAt (f pre post : List Char) (codes : List FCode) : Prop :=
  f = pre ++ renderSec codes ++ post ∧
  (post = [] ∨ ∃ r, post = '/' :: r) ∧
  codes ≠ [] ∧ ∀ c ∈ codes, codeOK c

/-- Well-formedness of a whole flow code with respect to declarative
sections: either the two-section form around a `/`, or a single section
serving both sides. -/
def FlowWF (f : List Char) (inC outC : List FCode) : Prop :=
  inC ≠ [] ∧ outC ≠ [] ∧ (∀ c ∈ inC, codeOK c) ∧ (∀ c ∈ outC, codeOK c) ∧
  (f = renderSec inC ++ '/' :: renderSec outC ∨ (inC = outC ∧ f = renderSec inC))

theorem flowLetter_ne (c x : Char) (h : isFlowLetter c = true)
    (hx : isFlowLetter x = false) : c ≠ x := by
  intro he
  rw [he, hx] at h
  exact Bool.false_ne_true h

theorem itemChar_ne (it : FItem) (h : itemOK it) (x : Char)
    (hx : isFlowLetter x = false) (hhash : x ≠ '#') : itemChar it ≠ x := by
  cases it with
  | letter c => exact flowLetter_ne c x h hx
  | hash => simpa [itemChar] using (Ne.symm hhash)

theorem getc_append (u v : List Char) (i : Nat) :
    getc (u ++ v) (u.length + i) = getc v i := by
  unfold getc
  rw [List.getD_append_right u v nulc (u.length + i) (Nat.le_add_right _ _)]
  simp

theorem getc_head (u v : List Char) (c : Char) : getc (u ++ c :: v) u.length = c := by
  have h := getc_append u (c :: v) 0
  simpa using h

theorem scanBracketAux_items (port : Nat) (its : List FItem)
    (h : ∀ it ∈ its, itemOK it) (rest : List Char) (acc : Finset ℕ) :
    scanBracketAux port (its.map itemChar ++ ']' :: rest) acc =
      its.foldl (fun a it => insert (itemBit port it) a) acc := by
  induction its generalizing acc with
  | nil => simp [scanBracketAux]
  | cons it its ih =>
    have hit : itemOK it := h it (by simp)
    have hne1 : itemChar it ≠ ']' := itemChar_ne it hit ']' (by decide) (by decide)
    have hne2 : itemChar it ≠ nulc := itemChar_ne it hit nulc (by decide) (by decide)
    have hstep : (if isFlowLetter (itemChar it) then insert (itemChar it).toNat acc
        else if itemChar it = '#' then insert (port + 128) acc else acc) =
        insert (itemBit port it) acc := by
      cases it with
      | letter c =>
        simp only [itemOK] at hit
        simp only [itemChar, itemBit]
        rw [if_pos hit]
      | hash =>
        have hh : isFlowLetter '#' = false := by decide
        simp [itemChar, itemBit, hh]
    simp only [List.map_cons, List.cons_append, scanBracketAux]
    rw [if_neg (not_or.mpr ⟨hne1, hne2⟩), hstep]
    exact ih (fun x hx => h x (by simp [hx])) _

theorem findCloseAux_items (its : List FItem) (h : ∀ it ∈ its, itemOK it)
    (rest : List Char) :
    findCloseAux (its.map itemChar ++ ']' :: rest) = its.length := by
  induction its with
  | nil => simp [findCloseAux]
  | cons it its ih =>
    have hit : itemOK it := h it (by simp)
    have hne1 : itemChar it ≠ ']' := itemChar_ne it hit ']' (by decide) (by decide)
    have hne2 : itemChar it ≠ nulc := itemChar_ne it hit nulc (by decide) (by decide)
    simp only [List.map_cons, List.cons_append, findCloseAux, List.append_eq]
    rw [if_neg (not_or.mpr ⟨hne1, hne2⟩),
      ih (fun x hx => h x (by simp [hx]))]
    simp [Nat.add_comm]

theorem findOpen_lands (f : List Char) (b m : Nat)
    (hopen : getc f b = '[')
    (hmid : ∀ j, 1 ≤ j → j ≤ m → getc f (b + j) ≠ '[') :
    findOpen f (b + m) = b := by
  induction m with
  | zero =>
    cases hb : b with
    | zero => rfl
    | succ t =>
      subst hb
      show findOpen f (t + 1) = t + 1
      unfold findOpen
      rw [if_pos hopen]
  | succ m ih =>
    show findOpen f ((b + m) + 1) = b
    unfold findOpen
    rw [if_neg (by
      have := hmid (m + 1) (by omega) (by omega)
      simpa [Nat.add_assoc] using this)]
    exact ih (fun j h1 h2 => hmid j h1 (by omega))

theorem getc_at (f A w : List Char) (hf : f = A ++ w) (i : Nat) :
    getc f (A.length + i) = getc w i := by
  rw [hf]; exact getc_append A w i

theorem drop_at (f A w : List Char) (hf : f = A ++ w) : f.drop A.length = w := by
  rw [hf]; exact List.drop_left A w

theorem nfcParse_at_single (f u v : List Char) (it : FItem) (hc : itemOK it)
    (hf : f = u ++ renderCode (FCode.single it) ++ v) (k : Nat) :
    nfcParse f u.length k =
      (u.length + (renderCode (FCode.single it)).length,
       codeBits k (FCode.single it)) := by
  have hch : getc f u.length = itemChar it := by
    have h0 := getc_at f u (itemChar it :: v)
      (by rw [hf]; simp [renderCode]) 0
    simpa using h0
  cases it with
  | letter c0 =>
    simp only [itemOK] at hc
    have h3 : c0 ≠ '[' := flowLetter_ne c0 '[' hc (by decide)
    simp only [nfcParse, hch, itemChar]
    rw [if_neg h3, if_pos hc]
    simp [renderCode, codeBits, itemBit, itemChar]
  | hash =>
    simp only [nfcParse, hch, itemChar]
    rw [if_neg (by decide), if_neg (by decide : ¬ (isFlowLetter '#' = true))]
    simp [renderCode, codeBits, itemBit, itemChar]

theorem nfcParse_at_bracket (f u v : List Char) (neg : Bool) (items : List FItem)
    (hc : ∀ it ∈ items, itemOK it)
    (hf : f = u ++ renderCode (FCode.bracket neg items) ++ v) (k : Nat) :
    nfcParse f u.length k =
      (u.length + (renderCode (FCode.bracket neg items)).length,
       codeBits k (FCode.bracket neg items)) := by
  cases neg with
  | false =>
    have hf' : f = u ++ '[' :: (items.map itemChar ++ ']' :: v) := by
      rw [hf]; simp [renderCode]
    have hA1 : f = (u ++ ['[']) ++ (items.map itemChar ++ ']' :: v) := by
      rw [hf']; simp
    have hopen : getc f u.length = '[' := by
      rw [hf']; exact getc_head u _ '['
    have hch1 : getc f (u.length + 1) = getc (items.map itemChar ++ ']' :: v) 0 := by
      have h0 := getc_at f (u ++ ['[']) _ hA1 0
      simpa using h0
    have hnotneg : ¬ (getc f (u.length + 1) = '^') := by
      rw [hch1]
      cases items with
      | nil => simp [getc]
      | cons it its =>
        have hit : itemOK it := hc it (by simp)
        simpa [getc] using itemChar_ne it hit '^' (by decide) (by decide)
    have hdrop : f.drop (u.length + 1) = items.map itemChar ++ ']' :: v := by
      have h0 := drop_at f (u ++ ['[']) _ hA1
      simpa using h0
    have hscan : scanBracket f k (u.length + 1) ∅ =
        items.foldl (fun a it => insert (itemBit k it) a) ∅ := by
      unfold scanBracket
      rw [hdrop]
      exact scanBracketAux_items k items hc v ∅
    have hfc : findClose f (u.length + 1) = u.length + 1 + items.length := by
      unfold findClose
      rw [hdrop, findCloseAux_items items hc v]
    have hclose : getc f (u.length + 1 + items.length) = ']' := by
      have h0 := getc_at f (u ++ ['[']) _ hA1 items.length
      simp only [List.length_append, List.length_cons, List.length_nil] at h0
      rw [show u.length + 1 + items.length = u.length + (0 + 1) + items.length by omega]
      rw [h0]
      unfold getc
      rw [List.getD_append_right (items.map itemChar) (']' :: v) nulc items.length
        (by simp)]
      simp
    simp only [nfcParse]
    rw [if_pos hopen, if_neg hnotneg, if_neg hnotneg, hscan, hfc, hclose]
    rw [if_neg (by decide : ¬ ((']' : Char) = nulc))]
    simp [Prod.mk.injEq, renderCode, codeBits]
    omega
  | true =>
    have hf' : f = u ++ '[' :: '^' :: (items.map itemChar ++ ']' :: v) := by
      rw [hf]; simp [renderCode]
    have hA1 : f = (u ++ ['[']) ++ ('^' :: (items.map itemChar ++ ']' :: v)) := by
      rw [hf']; simp
    have hA2 : f = (u ++ ['[', '^']) ++ (items.map itemChar ++ ']' :: v) := by
      rw [hf']; simp
    have hopen : getc f u.length = '[' := by
      rw [hf']; exact getc_head u _ '['
    have hneg1 : getc f (u.length + 1) = '^' := by
      have h0 := getc_at f (u ++ ['[']) _ hA1 0
      simpa using h0
    have hdrop : f.drop (u.length + 1 + 1) = items.map itemChar ++ ']' :: v := by
      have h0 := drop_at f (u ++ ['[', '^']) _ hA2
      simpa [Nat.add_assoc] using h0
    have hscan : scanBracket f k (u.length + 1 + 1) ∅ =
        items.foldl (fun a it => insert (itemBit k it) a) ∅ := by
      unfold scanBracket
      rw [hdrop]
      exact scanBracketAux_items k items hc v ∅
    have hfc : findClose f (u.length + 1 + 1) = u.length + 2 + items.length := by
      unfold findClose
      rw [hdrop, findCloseAux_items items hc v]
    have hclose : getc f (u.length + 2 + items.length) = ']' := by
      have h0 := getc_at f (u ++ ['[', '^']) _ hA2 items.length
      simp only [List.length_append, List.length_cons, List.length_nil] at h0
      rw [show u.length + 2 + items.length = u.length + (1 + 1) + items.length by omega]
      rw [h0]
      unfold getc
      rw [List.getD_append_right (items.map itemChar) (']' :: v) nulc items.length
        (by simp)]
      simp
    simp only [nfcParse]
    rw [if_pos hopen, if_pos hneg1, if_pos hneg1, hscan, hfc, hclose]
    rw [if_neg (by decide : ¬ ((']' : Char) = nulc))]
    simp [Prod.mk.injEq, renderCode, codeBits]
    omega

theorem nfcParse_at (f u v : List Char) (c : FCode) (hc : codeOK c)
    (hf : f = u ++ renderCode c ++ v) (k : Nat) :
    nfcParse f u.length k = (u.length + (renderCode c).length, codeBits k c) := by
  cases c with
  | single it => exact nfcParse_at_single f u v it hc hf k
  | bracket neg items => exact nfcParse_at_bracket f u v neg items hc hf k

theorem renderCode_head (c : FCode) (hc : codeOK c) :
    ∃ ch rest, renderCode c = ch :: rest ∧ ch ≠ '/' ∧ ch ≠ nulc := by
  cases c with
  | single it =>
    exact ⟨itemChar it, [], rfl, itemChar_ne it hc '/' (by decide) (by decide),
      itemChar_ne it hc nulc (by decide) (by decide)⟩
  | bracket neg items =>
    exact ⟨'[', _, rfl, by decide, by decide⟩

theorem getc_code_start (f u v : List Char) (c : FCode) (hc : codeOK c)
    (hf : f = u ++ renderCode c ++ v) :
    getc f u.length ≠ '/' ∧ getc f u.length ≠ nulc := by
  obtain ⟨ch, rest, hr, h1, h2⟩ := renderCode_head c hc
  have hch : getc f u.length = ch := by
    rw [hf, hr, List.append_assoc]
    exact getc_head u (rest ++ v) ch
  rw [hch]
  exact ⟨h1, h2⟩

theorem next_at_code (f u v : List Char) (c : FCode) (hc : codeOK c)
    (hf : f = u ++ renderCode c ++ v) (k : Nat) :
    next_flow_code f u.length k = (u.length + (renderCode c).length, codeBits k c) := by
  obtain ⟨h1, h2⟩ := getc_code_start f u v c hc hf
  have hb : nfcBackup f u.length = u.length := by
    unfold nfcBackup
    rw [if_neg (not_or.mpr ⟨h1, h2⟩)]
  unfold next_flow_code
  rw [hb]
  exact nfcParse_at f u v c hc hf k

theorem skip_at_code (f u v : List Char) (c : FCode) (hc : codeOK c)
    (hf : f = u ++ renderCode c ++ v) :
    skip_flow_code f u.length = u.length + (renderCode c).length := by
  obtain ⟨h1, h2⟩ := getc_code_start f u v c hc hf
  unfold skip_flow_code
  rw [if_pos ⟨h1, h2⟩]
  cases c with
  | single it =>
    have hch : getc f u.length = itemChar it := by
      have h0 := getc_at f u (itemChar it :: v)
        (by rw [hf]; simp [renderCode]) 0
      simpa using h0
    rw [hch, if_neg (itemChar_ne it hc '[' (by decide) (by decide))]
    simp [renderCode]
  | bracket neg items =>
    cases neg with
    | false =>
      have hf' : f = u ++ '[' :: (items.map itemChar ++ ']' :: v) := by
        rw [hf]; simp [renderCode]
      have hA1 : f = (u ++ ['[']) ++ (items.map itemChar ++ ']' :: v) := by
        rw [hf']; simp
      have hopen : getc f u.length = '[' := by
        rw [hf']; exact getc_head u _ '['
      have hdrop : f.drop (u.length + 1) = items.map itemChar ++ ']' :: v := by
        have h0 := drop_at f (u ++ ['[']) _ hA1
        simpa using h0
      have hfc : findClose f (u.length + 1) = u.length + 1 + items.length := by
        unfold findClose
        rw [hdrop, findCloseAux_items items hc v]
      have hclose : getc f (u.length + 1 + items.length) = ']' := by
        have h0 := getc_at f (u ++ ['[']) _ hA1 items.length
        simp only [List.length_append, List.length_cons, List.length_nil] at h0
        rw [show u.length + 1 + items.length = u.length + (0 + 1) + items.length by omega]
        rw [h0]
        unfold getc
        rw [List.getD_append_right (items.map itemChar) (']' :: v) nulc items.length
          (by simp)]
        simp
      rw [if_pos hopen, hfc]
      simp only [hclose]
      rw [if_neg (by decide : ¬ ((']' : Char) = nulc))]
      simp [renderCode]
      omega
    | true =>
      have hf' : f = u ++ '[' :: '^' :: (items.map itemChar ++ ']' :: v) := by
        rw [hf]; simp [renderCode]
      have hA1 : f = (u ++ ['[']) ++ ('^' :: (items.map itemChar ++ ']' :: v)) := by
        rw [hf']; simp
      have hA2 : f = (u ++ ['[', '^']) ++ (items.map itemChar ++ ']' :: v) := by
        rw [hf']; simp
      have hopen : getc f u.length = '[' := by
        rw [hf']; exact getc_head u _ '['
      have hdrop : f.drop (u.length + 1) = '^' :: (items.map itemChar ++ ']' :: v) := by
        have h0 := drop_at f (u ++ ['[']) _ hA1
        simpa using h0
      have hfc : findClose f (u.length + 1) = u.length + 2 + items.length := by
        unfold findClose
        rw [hdrop]
        have hstep : findCloseAux ('^' :: (items.map itemChar ++ ']' :: v)) =
            1 + findCloseAux (items.map itemChar ++ ']' :: v) := by
          simp only [findCloseAux]
          rw [if_neg (by decide : ¬ (('^' : Char) = ']' ∨ ('^' : Char) = nulc))]
        rw [hstep, findCloseAux_items items hc v]
        omega
      have hclose : getc f (u.length + 2 + items.length) = ']' := by
        have h0 := getc_at f (u ++ ['[', '^']) _ hA2 items.length
        simp only [List.length_append, List.length_cons, List.length_nil] at h0
        rw [show u.length + 2 + items.length = u.length + (1 + 1) + items.length by omega]
        rw [h0]
        unfold getc
        rw [List.getD_append_right (items.map itemChar) (']' :: v) nulc items.length
          (by simp)]
        simp
      rw [if_pos hopen, hfc]
      simp only [hclose]
      rw [if_neg (by decide : ¬ ((']' : Char) = nulc))]
      simp [renderCode]
      omega

theorem getc_term (f u v : List Char) (c : FCode)
    (hf : f = u ++ renderCode c ++ v) (hv : v = [] ∨ ∃ r, v = '/' :: r) :
    getc f (u.length + (renderCode c).length) = '/' ∨
    getc f (u.length + (renderCode c).length) = nulc := by
  have hA : f = (u ++ renderCode c) ++ v := by rw [hf]
  have h0 := getc_at f (u ++ renderCode c) v hA 0
  simp only [List.length_append, Nat.add_zero] at h0
  rcases hv with rfl | ⟨r, rfl⟩
  · right
    rw [h0]
    rfl
  · left
    rw [h0]
    rfl

theorem nfcBackup_term (f u v : List Char) (c : FCode) (hc : codeOK c)
    (hf : f = u ++ renderCode c ++ v) (hv : v = [] ∨ ∃ r, v = '/' :: r) :
    nfcBackup f (u.length + (renderCode c).length) = u.length := by
  have hT := getc_term f u v c hf hv
  unfold nfcBackup
  rw [if_pos hT]
  cases c with
  | single it =>
    have hlen : u.length + (renderCode (FCode.single it)).length - 1 = u.length := by
      simp [renderCode]
    have hch : getc f (u.length + (renderCode (FCode.single it)).length - 1) =
        itemChar it := by
      rw [hlen]
      have h0 := getc_at f u (itemChar it :: v)
        (by rw [hf]; simp [renderCode]) 0
      simpa using h0
    rw [hch, if_neg (itemChar_ne it hc ']' (by decide) (by decide))]
    exact hlen
  | bracket neg items =>
    cases neg with
    | false =>
      have hlen : (renderCode (FCode.bracket false items)).length =
          items.length + 2 := by
        simp [renderCode]
      have hB : f = (u ++ '[' :: items.map itemChar) ++ ']' :: v := by
        rw [hf]; simp [renderCode]
      have hcl : getc f (u.length + (renderCode (FCode.bracket false items)).length - 1)
          = ']' := by
        have h0 := getc_head (u ++ '[' :: items.map itemChar) v ']'
        rw [← hB] at h0
        simpa [hlen, Nat.add_sub_cancel, List.length_append] using h0
      rw [hcl, if_pos rfl]
      have hopen : getc f u.length = '[' := by
        have hX : f = u ++ '[' :: (items.map itemChar ++ ']' :: v) := by
          rw [hf]; simp [renderCode]
        rw [hX]; exact getc_head u _ '['
      have hmid : ∀ j, 1 ≤ j → j ≤ items.length → getc f (u.length + j) ≠ '[' := by
        intro j hj1 hj2
        have hA1 : f = (u ++ ['[']) ++ (items.map itemChar ++ ']' :: v) := by
          rw [hf]; simp [renderCode]
        have h0 := getc_at f (u ++ ['[']) _ hA1 (j - 1)
        simp only [List.length_append, List.length_cons, List.length_nil] at h0
        have hj : u.length + j = u.length + (0 + 1) + (j - 1) := by omega
        rw [hj, h0]
        have hjlt : j - 1 < (items.map itemChar).length := by
          simp
          omega
        unfold getc
        rw [List.getD_append _ _ _ _ hjlt, List.getD_eq_getElem _ _ hjlt]
        have hmem := List.getElem_mem hjlt
        rw [List.mem_map] at hmem
        obtain ⟨it, hit, hchar⟩ := hmem
        rw [← hchar]
        exact itemChar_ne it (hc it hit) '[' (by decide) (by decide)
      have harith : u.length + (renderCode (FCode.bracket false items)).length - 2 =
          u.length + items.length := by
        rw [hlen]
        omega
      rw [harith]
      exact findOpen_lands f u.length items.length hopen hmid
    | true =>
      have hlen : (renderCode (FCode.bracket true items)).length =
          items.length + 3 := by
        simp [renderCode]
      have hB : f = (u ++ '[' :: '^' :: items.map itemChar) ++ ']' :: v := by
        rw [hf]; simp [renderCode]
      have hcl : getc f (u.length + (renderCode (FCode.bracket true items)).length - 1)
          = ']' := by
        have h0 := getc_head (u ++ '[' :: '^' :: items.map itemChar) v ']'
        rw [← hB] at h0
        simpa [hlen, List.length_append] using h0
      rw [hcl, if_pos rfl]
      have hopen : getc f u.length = '[' := by
        have hX : f = u ++ '[' :: ('^' :: (items.map itemChar ++ ']' :: v)) := by
          rw [hf]; simp [renderCode]
        rw [hX]; exact getc_head u _ '['
      have hmid : ∀ j, 1 ≤ j → j ≤ items.length + 1 → getc f (u.length + j) ≠ '[' := by
        intro j hj1 hj2
        have hA1 : f = (u ++ ['[']) ++ ('^' :: items.map itemChar ++ ']' :: v) := by
          rw [hf]; simp [renderCode]
        have h0 := getc_at f (u ++ ['[']) _ hA1 (j - 1)
        simp only [List.length_append, List.length_cons, List.length_nil] at h0
        have hj : u.length + j = u.length + (0 + 1) + (j - 1) := by omega
        rw [hj, h0]
        have hjlt : j - 1 < ('^' :: items.map itemChar).length := by
          simp
          omega
        unfold getc
        rw [List.getD_append _ _ _ _ hjlt, List.getD_eq_getElem _ _ hjlt]
        have hmem := List.getElem_mem hjlt
        rcases List.mem_cons.mp hmem with hcar | hmem2
        · rw [hcar]
          decide
        · rw [List.mem_map] at hmem2
          obtain ⟨it, hit, hchar⟩ := hmem2
          rw [← hchar]
          exact itemChar_ne it (hc it hit) '[' (by decide) (by decide)
      have harith : u.length + (renderCode (FCode.bracket true items)).length - 2 =
          u.length + (items.length + 1) := by
        rw [hlen]
        omega
      rw [harith]
      exact findOpen_lands f u.length (items.length + 1) hopen hmid

theorem next_at_term (f u v : List Char) (c : FCode) (hc : codeOK c)
    (hf : f = u ++ renderCode c ++ v) (hv : v = [] ∨ ∃ r, v = '/' :: r) (k : Nat) :
    next_flow_code f (u.length + (renderCode c).length) k =
      (u.length + (renderCode c).length, codeBits k c) := by
  unfold next_flow_code
  rw [nfcBackup_term f u v c hc hf hv, nfcParse_at f u v c hc hf k]

theorem skip_at_term (f u v : List Char) (c : FCode)
    (hf : f = u ++ renderCode c ++ v) (hv : v = [] ∨ ∃ r, v = '/' :: r) :
    skip_flow_code f (u.length + (renderCode c).length) =
      u.length + (renderCode c).length := by
  have hT := getc_term f u v c hf hv
  unfold skip_flow_code
  rw [if_neg]
  rintro ⟨ha, hb⟩
  rcases hT with h | h
  · exact ha h
  · exact hb h

/-- The pointer position at which the `k`-th code of a section starts
(clamped to the section's terminator once the codes run out). -/
def sectPos (pre : List Char) (codes : List FCode) (k : Nat) : Nat :=
  pre.length + (renderSec (codes.take k)).length

theorem renderSec_append (a b : List FCode) :
    renderSec (a ++ b) = renderSec a ++ renderSec b := by
  simp [renderSec]

theorem renderSec_cons (c : FCode) (l : List FCode) :
    renderSec (c :: l) = renderCode c ++ renderSec l := by
  simp [renderSec]

theorem sec_decomp (f pre post : List Char) (codes : List FCode)
    (hf : f = pre ++ renderSec codes ++ post) (k : Nat) (hk : k < codes.length) :
    f = (pre ++ renderSec (codes.take k)) ++ renderCode codes[k] ++
        (renderSec (codes.drop (k + 1)) ++ post) := by
  have hsplit : codes = codes.take k ++ codes[k] :: codes.drop (k + 1) := by
    conv_lhs => rw [← List.take_append_drop k codes]
    rw [List.drop_eq_getElem_cons hk]
  rw [hf]
  conv_lhs => rw [hsplit]
  rw [renderSec_append, renderSec_cons]
  simp [List.append_assoc]

theorem sec_step (f pre post : List Char) (codes : List FCode)
    (h : SecAt f pre post codes) (k port : Nat) :
    next_flow_code f (sectPos pre codes k) port =
      (sectPos pre codes (k + 1), codeBits port (codeIdx codes k)) ∧
    skip_flow_code f (sectPos pre codes k) = sectPos pre codes (k + 1) := by
  obtain ⟨hf, hpost, hne, hok⟩ := h
  by_cases hk : k < codes.length
  · have hdec := sec_decomp f pre post codes hf k hk
    have hOK : codeOK codes[k] := hok _ (List.getElem_mem hk)
    have hu : (pre ++ renderSec (codes.take k)).length = sectPos pre codes k := by
      simp [sectPos]
    have htake : codes.take (k + 1) = codes.take k ++ [codes[k]] := by
      rw [List.take_succ]
      simp [List.getElem?_eq_getElem hk]
    have hpos1 : sectPos pre codes (k + 1) =
        sectPos pre codes k + (renderCode codes[k]).length := by
      unfold sectPos
      rw [htake, renderSec_append, List.length_append]
      have hsing : (renderSec [codes[k]]).length = (renderCode codes[k]).length := by
        simp [renderSec]
      omega
    have hidx : codeIdx codes k = codes[k] := by
      unfold codeIdx
      rw [show min k (codes.length - 1) = k by omega]
      rw [List.getD_eq_getElem _ _ hk]
    constructor
    · have hn := next_at_code f (pre ++ renderSec (codes.take k)) _ codes[k] hOK hdec port
      rw [hu] at hn
      rw [hn, hpos1, hidx]
    · have hs := skip_at_code f (pre ++ renderSec (codes.take k)) _ codes[k] hOK hdec
      rw [hu] at hs
      rw [hs, hpos1]
  · push_neg at hk
    have hlast : codes.dropLast ++ [codes.getLast hne] = codes :=
      List.dropLast_append_getLast hne
    have hdec : f = (pre ++ renderSec codes.dropLast) ++
        renderCode (codes.getLast hne) ++ post := by
      rw [hf]
      conv_lhs => rw [← hlast]
      rw [renderSec_append, renderSec_cons]
      simp [renderSec, List.append_assoc]
    have hOK := hok _ (List.getLast_mem hne)
    have hTeq : sectPos pre codes k =
        (pre ++ renderSec codes.dropLast).length +
          (renderCode (codes.getLast hne)).length := by
      unfold sectPos
      rw [List.take_of_length_le hk]
      conv_lhs => rw [← hlast]
      rw [renderSec_append, renderSec_cons]
      simp [renderSec]
      omega
    have hTeq1 : sectPos pre codes (k + 1) = sectPos pre codes k := by
      unfold sectPos
      rw [List.take_of_length_le hk, List.take_of_length_le (by omega)]
    have hidx : codeIdx codes k = codes.getLast hne := by
      unfold codeIdx
      have hlenpos : 0 < codes.length := List.length_pos.mpr hne
      rw [show min k (codes.length - 1) = codes.length - 1 by omega]
      rw [List.getD_eq_getElem _ _ (by omega)]
      rw [List.getLast_eq_getElem codes hne]
    constructor
    · rw [hTeq1, hTeq, hidx]
      exact next_at_term f _ post (codes.getLast hne) hOK hdec hpost port
    · rw [hTeq1, hTeq]
      exact skip_at_term f _ post (codes.getLast hne) hdec hpost

theorem sec_skipN (f pre post : List Char) (codes : List FCode)
    (h : SecAt f pre post codes) (k : Nat) :
    skipN f pre.length k = sectPos pre codes k := by
  induction k with
  | zero => simp [skipN, sectPos, renderSec]
  | succ k ih =>
    show skip_flow_code f (skipN f pre.length k) = _
    rw [ih]
    exact (sec_step f pre post codes h k 0).2

theorem sec_travels (f pre post : List Char) (codes : List FCode)
    (h : SecAt f pre post codes) (ic : Finset ℕ) (n : Nat) :
    ∀ k : Nat, flowTravels f ic (sectPos pre codes k) k n =
      (List.range n).map
        (fun i => decide ((ic ∩ codeBits (k + i) (codeIdx codes (k + i))).Nonempty)) := by
  induction n with
  | zero => intro k; simp [flowTravels]
  | succ n ih =>
    intro k
    simp only [flowTravels]
    rw [(sec_step f pre post codes h k k).1, ih (k + 1), List.range_succ_eq_map]
    simp only [List.map_cons, List.map_map, Nat.add_zero]
    congr 1
    apply List.map_congr_left
    intro i _
    simp only [Function.comp]
    have harith : k + 1 + i = k + (i + 1) := by omega
    rw [harith]

theorem renderCode_no_slash (c : FCode) (hc : codeOK c) : '/' ∉ renderCode c := by
  cases c with
  | single it =>
    simp only [renderCode, List.mem_singleton]
    exact fun he => (itemChar_ne it hc '/' (by decide) (by decide)) he.symm
  | bracket neg items =>
    simp only [renderCode, List.mem_cons, List.mem_append]
    rintro (h1 | (h2 | h3) | h4)
    · exact absurd h1 (by decide)
    · cases neg with
      | true => simp at h2
      | false => simp at h2
    · rw [List.mem_map] at h3
      obtain ⟨it, hit, hchar⟩ := h3
      exact (itemChar_ne it (hc it hit) '/' (by decide) (by decide)) hchar
    · simp at h4

theorem renderSec_no_slash (codes : List FCode) (hok : ∀ c ∈ codes, codeOK c) :
    '/' ∉ renderSec codes := by
  unfold renderSec
  rw [List.mem_flatten]
  rintro ⟨l, hl, hmem⟩
  rw [List.mem_map] at hl
  obtain ⟨c, hc, rfl⟩ := hl
  exact renderCode_no_slash c (hok c hc) hmem

theorem renderSec_head (codes : List FCode) (hne : codes ≠ [])
    (hok : ∀ c ∈ codes, codeOK c) :
    ∃ ch rest, renderSec codes = ch :: rest ∧ ch ≠ '/' ∧ ch ≠ nulc := by
  obtain ⟨c, cs, rfl⟩ : ∃ c cs, codes = c :: cs := by
    cases codes with
    | nil => exact absurd rfl hne
    | cons a l => exact ⟨a, l, rfl⟩
  obtain ⟨ch, rest, hr, h1, h2⟩ := renderCode_head c (hok c (by simp))
  refine ⟨ch, rest ++ renderSec cs, ?_, h1, h2⟩
  rw [renderSec_cons, hr]
  simp

theorem findIdx?_append_slash (A B : List Char) (h : '/' ∉ A) :
    (A ++ '/' :: B).findIdx? (· = '/') = some A.length := by
  induction A with
  | nil => simp [List.findIdx?_cons]
  | cons a A ih =>
    have ha : ¬ (a = '/') := fun he => h (by simp [he])
    simp only [List.cons_append, List.findIdx?_cons]
    rw [if_neg (by simpa using ha), List.findIdx?_succ,
      ih (fun hx => h (List.mem_cons_of_mem a hx))]
    simp

theorem findIdx?_no_slash (A : List Char) (h : '/' ∉ A) :
    A.findIdx? (· = '/') = none := by
  induction A with
  | nil => simp
  | cons a A ih =>
    have ha : ¬ (a = '/') := fun he => h (by simp [he])
    simp only [List.findIdx?_cons]
    rw [if_neg (by simpa using ha), List.findIdx?_succ,
      ih (fun hx => h (List.mem_cons_of_mem a hx))]
    rfl

theorem flow_compute (f preIn postIn preOut postOut : List Char)
    (secIn secOut : List FCode) (hSin : SecAt f preIn postIn secIn)
    (hSout : SecAt f preOut postOut secOut) (tn n : Nat) :
    flowTravels f (next_flow_code f (skipN f preIn.length tn) tn).2
        preOut.length 0 n =
      (List.range n).map (fun j =>
        decide ((codeBits tn (codeIdx secIn tn) ∩
          codeBits j (codeIdx secOut j)).Nonempty)) := by
  rw [sec_skipN f preIn postIn secIn hSin tn,
    (sec_step f preIn postIn secIn hSin tn tn).1]
  have h0 : preOut.length = sectPos preOut secOut 0 := by
    simp [sectPos, renderSec]
  rw [h0, sec_travels f preOut postOut secOut hSout _ n 0]
  simp

theorem port_flow_wf_false (e : Element) (inC outC : List FCode)
    (hwf : FlowWF e.flow_code inC outC) (hns : e.flow_code ≠ COMPLETE_FLOW)
    (port : Int) (h0 : 0 ≤ port) (hlt : port < (e.nportsOf false : Int)) :
    port_flow e false port =
      (List.range (e.nportsOf (!false))).map (fun j =>
        decide ((codeBits port.toNat (codeIdx inC port.toNat) ∩
          codeBits j (codeIdx outC j)).Nonempty)) := by
  obtain ⟨hne1, hne2, hok1, hok2, hform⟩ := hwf
  rcases hform with hsl | ⟨hio, hnos⟩
  · have hSin : SecAt e.flow_code [] ('/' :: renderSec outC) inC :=
      ⟨by simpa using hsl, Or.inr ⟨_, rfl⟩, hne1, hok1⟩
    have hSout : SecAt e.flow_code (renderSec inC ++ ['/']) [] outC := by
      refine ⟨?_, Or.inl rfl, hne2, hok2⟩
      rw [hsl]; simp
    have hfind : e.flow_code.findIdx? (· = '/') = some (renderSec inC).length := by
      rw [hsl]; exact findIdx?_append_slash _ _ (renderSec_no_slash inC hok1)
    obtain ⟨ch, rest, hr, hch1, hch2⟩ := renderSec_head outC hne2 hok2
    have hgetOut : getc e.flow_code ((renderSec inC).length + 1) = ch := by
      have hA : e.flow_code = (renderSec inC ++ ['/']) ++ (ch :: rest) := by
        rw [hsl, hr]; simp
      have h0' := getc_at _ _ _ hA 0
      simp only [List.length_append, List.length_cons, List.length_nil,
        Nat.add_zero] at h0'
      simpa [getc] using h0'
    have hnc : ¬ (getc e.flow_code ((renderSec inC).length + 1) = nulc ∨
        getc e.flow_code ((renderSec inC).length + 1) = '/') := by
      rw [hgetOut]
      rintro (h | h)
      · exact hch2 h
      · exact hch1 h
    simp only [port_flow, hfind]
    rw [if_neg (by omega), if_neg hns, if_neg hnc,
      if_neg (by decide : ¬ (false = true)), if_neg (by decide : ¬ (false = true))]
    have hpo : (renderSec inC).length + 1 = (renderSec inC ++ ['/']).length := by simp
    rw [hpo]
    exact flow_compute e.flow_code [] ('/' :: renderSec outC)
      (renderSec inC ++ ['/']) [] inC outC hSin hSout port.toNat _
  · subst hio
    have hSin : SecAt e.flow_code [] [] inC :=
      ⟨by simpa using hnos, Or.inl rfl, hne1, hok1⟩
    have hfind : e.flow_code.findIdx? (· = '/') = none := by
      rw [hnos]; exact findIdx?_no_slash _ (renderSec_no_slash inC hok1)
    obtain ⟨ch, rest, hr, hch1, hch2⟩ := renderSec_head inC hne1 hok1
    have hget0 : getc e.flow_code 0 = ch := by
      rw [hnos, hr]; rfl
    have hnc : ¬ (getc e.flow_code 0 = nulc ∨ getc e.flow_code 0 = '/') := by
      rw [hget0]
      rintro (h | h)
      · exact hch2 h
      · exact hch1 h
    simp only [port_flow, hfind]
    rw [if_neg (by omega), if_neg hns, if_neg hnc]
    exact flow_compute e.flow_code [] [] [] [] inC inC hSin hSin port.toNat _

theorem port_flow_wf_true (e : Element) (inC outC : List FCode)
    (hwf : FlowWF e.flow_code inC outC) (hns : e.flow_code ≠ COMPLETE_FLOW)
    (port : Int) (h0 : 0 ≤ port) (hlt : port < (e.nportsOf true : Int)) :
    port_flow e true port =
      (List.range (e.nportsOf (!true))).map (fun j =>
        decide ((codeBits port.toNat (codeIdx outC port.toNat) ∩
          codeBits j (codeIdx inC j)).Nonempty)) := by
  obtain ⟨hne1, hne2, hok1, hok2, hform⟩ := hwf
  rcases hform with hsl | ⟨hio, hnos⟩
  · have hSin : SecAt e.flow_code [] ('/' :: renderSec outC) inC :=
      ⟨by simpa using hsl, Or.inr ⟨_, rfl⟩, hne1, hok1⟩
    have hSout : SecAt e.flow_code (renderSec inC ++ ['/']) [] outC := by
      refine ⟨?_, Or.inl rfl, hne2, hok2⟩
      rw [hsl]; simp
    have hfind : e.flow_code.findIdx? (· = '/') = some (renderSec inC).length := by
      rw [hsl]; exact findIdx?_append_slash _ _ (renderSec_no_slash inC hok1)
    obtain ⟨ch, rest, hr, hch1, hch2⟩ := renderSec_head outC hne2 hok2
    have hgetOut : getc e.flow_code ((renderSec inC).length + 1) = ch := by
      have hA : e.flow_code = (renderSec inC ++ ['/']) ++ (ch :: rest) := by
        rw [hsl, hr]; simp
      have h0' := getc_at _ _ _ hA 0
      simp only [List.length_append, List.length_cons, List.length_nil,
        Nat.add_zero] at h0'
      simpa [getc] using h0'
    have hnc : ¬ (getc e.flow_code ((renderSec inC).length + 1) = nulc ∨
        getc e.flow_code ((renderSec inC).length + 1) = '/') := by
      rw [hgetOut]
      rintro (h | h)
      · exact hch2 h
      · exact hch1 h
    simp only [port_flow, hfind]
    rw [if_neg (by omega), if_neg hns, if_neg hnc,
      if_pos trivial, if_pos trivial]
    have hpo : (renderSec inC).length + 1 = (renderSec inC ++ ['/']).length := by simp
    rw [hpo]
    exact flow_compute e.flow_code (renderSec inC ++ ['/']) [] []
      ('/' :: renderSec outC) outC inC hSout hSin port.toNat _
  · subst hio
    have hSin : SecAt e.flow_code [] [] inC :=
      ⟨by simpa using hnos, Or.inl rfl, hne1, hok1⟩
    have hfind : e.flow_code.findIdx? (· = '/') = none := by
      rw [hnos]; exact findIdx?_no_slash _ (renderSec_no_slash inC hok1)
    obtain ⟨ch, rest, hr, hch1, hch2⟩ := renderSec_head inC hne1 hok1
    have hget0 : getc e.flow_code 0 = ch := by
      rw [hnos, hr]; rfl
    have hnc : ¬ (getc e.flow_code 0 = nulc ∨ getc e.flow_code 0 = '/') := by
      rw [hget0]
      rintro (h | h)
      · exact hch2 h
      · exact hch1 h
    simp only [port_flow, hfind]
    rw [if_neg (by omega), if_neg hns, if_neg hnc]
    exact flow_compute e.flow_code [] [] [] [] inC inC hSin hSin port.toNat _

theorem getD_map_range {α : Type} (g : Nat → α) (n j : Nat) (d : α) (h : j < n) :
    ((List.range n).map g).getD j d = g j := by
  rw [List.getD_eq_getElem _ _ (by simpa using h)]
  simp

theorem getD_replicate_lt {α : Type} (n j : Nat) (a d : α) (h : j < n) :
    (List.replicate n a).getD j d = a := by
  rw [List.getD_eq_getElem _ _ (by simpa using h)]
  simp

/-- Claim C2: for every element with a well-formed flow code (two
non-empty sections of legal codes around a `/`, or a single such section
serving both sides) and every in-range input index i and output index j,
entry j of port_flow on the input side at i equals entry i of port_flow
on the output side at j. -/
theorem flow_code_symmetry (e : Element) (inC outC : List FCode)
    (hwf : FlowWF e.flow_code inC outC) (i j : Nat)
    (hi : i < e.inputs.length) (hj : j < e.outputs.length) :
    (port_flow e false (i : Int)).getD j false =
      (port_flow e true (j : Int)).getD i false := by
  have hnf : e.nportsOf false = e.inputs.length := rfl
  have hnt : e.nportsOf true = e.outputs.length := rfl
  have hri : ¬ ((i : Int) < 0 ∨ (e.nportsOf false : Int) ≤ (i : Int)) := by
    push_neg
    exact ⟨Int.natCast_nonneg i, by rw [hnf]; exact_mod_cast hi⟩
  have hrj : ¬ ((j : Int) < 0 ∨ (e.nportsOf true : Int) ≤ (j : Int)) := by
    push_neg
    exact ⟨Int.natCast_nonneg j, by rw [hnt]; exact_mod_cast hj⟩
  by_cases hx : e.flow_code = COMPLETE_FLOW
  · have h1 : port_flow e false (i : Int) =
        List.replicate (e.nportsOf (!false)) true := by
      simp only [port_flow]
      rw [if_neg hri, if_pos hx]
    have h2 : port_flow e true (j : Int) =
        List.replicate (e.nportsOf (!true)) true := by
      simp only [port_flow]
      rw [if_neg hrj, if_pos hx]
    rw [h1, h2,
      getD_replicate_lt _ _ _ _ (by simpa [Element.nportsOf] using hj),
      getD_replicate_lt _ _ _ _ (by simpa [Element.nportsOf] using hi)]
  · rw [port_flow_wf_false e inC outC hwf hx (i : Int) (Int.natCast_nonneg i)
        (by rw [hnf]; exact_mod_cast hi),
      port_flow_wf_true e inC outC hwf hx (j : Int) (Int.natCast_nonneg j)
        (by rw [hnt]; exact_mod_cast hj),
      getD_map_range _ _ _ _ (by simpa [Element.nportsOf] using hj),
      getD_map_range _ _ _ _ (by simpa [Element.nportsOf] using hi)]
    simp only [Int.toNat_natCast]
    rw [decide_eq_decide, Finset.inter_comm]

/-- A concrete element with flow code "x#/[^x]#", two inputs, two
outputs, exercising letters, a complement bracket and self-port codes. -/
def symElt : Element :=
  { flow_code := "x#/[^x]#".data,
    inputs := List.replicate 2 defaultPort,
    outputs := List.replicate 2 defaultPort }

theorem flow_code_symmetry_witness :
    FlowWF symElt.flow_code
      [FCode.single (FItem.letter 'x'), FCode.single FItem.hash]
      [FCode.bracket true [FItem.letter 'x'], FCode.single FItem.hash] ∧
    (port_flow symElt false (1 : Int)).getD 0 false =
      (port_flow symElt true (0 : Int)).getD 1 false :=
  ⟨by constructor
      · decide
      constructor
      · decide
      constructor
      · decide
      constructor
      · decide
      · left
        decide,
   flow_code_symmetry symElt
     [FCode.single (FItem.letter 'x'), FCode.single FItem.hash]
     [FCode.bracket true [FItem.letter 'x'], FCode.single FItem.hash]
     (by constructor
         · decide
         constructor
         · decide
         constructor
         · decide
         constructor
         · decide
         · left
           decide)
     1 0 (by decide) (by decide)⟩

theorem inter_singleton_nonempty (s : Finset ℕ) (b : ℕ) :
    (s ∩ {b}).Nonempty ↔ b ∈ s := by
  constructor
  · rintro ⟨x, hx⟩
    rw [Finset.mem_inter, Finset.mem_singleton] at hx
    obtain ⟨hxs, rfl⟩ := hx
    exact hxs
  · intro h
    exact ⟨b, by rw [Finset.mem_inter, Finset.mem_singleton]; exact ⟨h, rfl⟩⟩

theorem flowLetter_toNat_lt (c : Char) (h : isFlowLetter c = true) :
    c.toNat < 256 := by
  unfold isFlowLetter at h
  rcases of_decide_eq_true h with ⟨-, h2⟩ | ⟨-, h2⟩ <;>
    · rw [Char.le_def] at h2
      exact lt_of_le_of_lt h2 (by decide)

/-- A concrete element with flow code "#/[^#]", 3 inputs, 3 outputs
(scenario S3 of the spec). -/
def hashFlowElt : Element :=
  { flow_code := "#/[^#]".data,
    inputs := List.replicate 3 defaultPort,
    outputs := List.replicate 3 defaultPort }

/-- Claim C5: for flow code "#/[^#]" with 3 inputs and 3 outputs,
port_flow(isoutput=false, 1) yields [true, false, true]; in general a '#'
code (as read by next_flow_code) matches another '#' exactly when both
sides carry the same port index, and a complement bracket group matches a
single code exactly when the un-negated group does not. -/
theorem flow_hash_and_complement :
    (port_flow hashFlowElt false 1 = [true, false, true]) ∧
    (∀ i j : Nat,
       (((next_flow_code ['#'] 0 i).2 ∩ (next_flow_code ['#'] 0 j).2).Nonempty ↔
         i = j)) ∧
    (∀ (items : List FItem) (it : FItem) (p q : Nat), itemOK it → q < 128 →
       ((codeBits p (FCode.bracket true items) ∩
           codeBits q (FCode.single it)).Nonempty ↔
         ¬ ((codeBits p (FCode.bracket false items) ∩
           codeBits q (FCode.single it)).Nonempty))) := by
  refine ⟨by decide, ?_, ?_⟩
  · intro i j
    have hnfc : ∀ m : Nat, (next_flow_code ['#'] 0 m).2 = {m + 128} := fun m => rfl
    rw [hnfc i, hnfc j]
    constructor
    · rintro ⟨x, hx⟩
      rw [Finset.mem_inter, Finset.mem_singleton, Finset.mem_singleton] at hx
      omega
    · rintro rfl
      exact ⟨i + 128, by simp⟩
  · intro items it p q hok hq
    have hb : itemBit q it < 256 := by
      cases it with
      | letter c => exact flowLetter_toNat_lt c hok
      | hash =>
        simp only [itemBit]
        omega
    simp only [codeBits]
    rw [if_pos trivial, if_neg (by decide : ¬ (false = true))]
    rw [inter_singleton_nonempty, inter_singleton_nonempty, Finset.mem_sdiff,
      Finset.mem_range]
    constructor
    · rintro ⟨-, h⟩
      exact h
    · intro h
      exact ⟨hb, h⟩

theorem flow_hash_and_complement_witness :
    (((next_flow_code ['#'] 0 2).2 ∩ (next_flow_code ['#'] 0 2).2).Nonempty) ∧
    itemOK (FItem.letter 'y') ∧ (1 : Nat) < 128 ∧
    (((codeBits 0 (FCode.bracket true [FItem.letter 'x']) ∩
        codeBits 1 (FCode.single (FItem.letter 'y'))).Nonempty) ↔
      ¬ ((codeBits 0 (FCode.bracket false [FItem.letter 'x']) ∩
        codeBits 1 (FCode.single (FItem.letter 'y'))).Nonempty)) :=
  ⟨(flow_hash_and_complement.2.1 2 2).mpr rfl, by decide, by decide,
   flow_hash_and_complement.2.2 [FItem.letter 'x'] (FItem.letter 'y') 0 1
     (by decide) (by decide)⟩

/-- Claim C8: for an element whose flow code is the COMPLETE_FLOW
sentinel "x/x", port_flow at any in-range port fills travels with the
all-true vector of length equal to the number of complementary ports;
for every element, an out-of-range port yields the all-false vector of
that same length. -/
theorem complete_flow_fast_path (e : Element) (isoutput : Bool) (port : Int) :
    (e.flow_code = COMPLETE_FLOW → 0 ≤ port →
       port < (e.nportsOf isoutput : Int) →
       port_flow e isoutput port = List.replicate (e.nportsOf (!isoutput)) true) ∧
    ((port < 0 ∨ (e.nportsOf isoutput : Int) ≤ port) →
       port_flow e isoutput port = List.replicate (e.nportsOf (!isoutput)) false) := by
  constructor
  · intro hf h0 hlt
    simp only [port_flow]
    rw [if_neg (by omega), if_pos hf]
  · intro h
    simp only [port_flow]
    rw [if_pos h]

/-- A concrete element with the sentinel flow code, 2 inputs, 1 output. -/
def cfElt : Element :=
  { flow_code := COMPLETE_FLOW,
    inputs := List.replicate 2 defaultPort,
    outputs := [defaultPort] }

theorem complete_flow_fast_path_witness :
    port_flow cfElt false 1 = List.replicate (cfElt.nportsOf (!false)) true ∧
    port_flow cfElt false 5 = List.replicate (cfElt.nportsOf (!false)) false :=
  ⟨(complete_flow_fast_path cfElt false 1).1 rfl (by decide) (by decide),
   (complete_flow_fast_path cfElt false 5).2 (Or.inr (by decide))⟩
